import Mathlib

/-!
Verification of the `dailylogger` rotation core (`writer.go`) against its
specification.

The development shallowly embeds the Go code.  Go's `time.Time` is modelled
by `GoTime`: an absolute nanosecond count since the Unix epoch together with
a fixed zone offset (seconds east of UTC).  The proleptic Gregorian calendar
conversions underlying `time.Date`, `AddDate`, `Year`, `Month` and `Day` are
modelled by `daysFromCivil` / `civilFromDays` (verified as mutual inverses
and checked below against concrete dates, including the dates used by the
repository's own tests).  Go's `Duration` is an `Int` of nanoseconds; the
saturation of `time.Sub` at the `int64` range is irrelevant for every
quantity handled here and is not modelled.
-/

namespace Dailylogger

/-- Days from the Unix epoch of the proleptic Gregorian date `y-m-d`
(the field conversion used by Go's `time.Date`).  Out-of-range day values
carry over into following months, as they do in `time.Date`. -/
def daysFromCivil (y m d : Int) : Int :=
  let y' : Int := if m ≤ 2 then y - 1 else y
  let era : Int := y' / 400
  let yoe : Int := y' - era * 400
  let doy : Int := (153 * (if 2 < m then m - 3 else m + 9) + 2) / 5 + d - 1
  let doe : Int := yoe * 365 + yoe / 4 - yoe / 100 + doy
  era * 146097 + doe - 719468

/-- Split a day-of-era (`0 ≤ doe ≤ 146096`) into its century (0..3) and the
day within that century.  The last day of the era belongs to century 3. -/
def centurySplit (doe : Int) : Int × Int :=
  let c : Int := if 146096 ≤ doe then 3 else doe / 36524
  (c, doe - 36524 * c)

/-- Split a day-of-century (`0 ≤ r ≤ 36524`) into its 4-year quad (0..24)
and the day within the quad. -/
def quadSplit (r : Int) : Int × Int :=
  (r / 1461, r - 1461 * (r / 1461))

/-- Split a day-of-quad (`0 ≤ rq ≤ 1460`) into its year (0..3) and the
(March-based) day of the year. -/
def yearSplit (rq : Int) : Int × Int :=
  let yq : Int := if 1460 ≤ rq then 3 else rq / 365
  (yq, rq - 365 * yq)

/-- Recover the calendar month (1..12) and day of month (1..31) from a
March-based day of year (`0 ≤ doy ≤ 365`). -/
def monthSplit (doy : Int) : Int × Int :=
  let mp : Int := (5 * doy + 2) / 153
  let d : Int := doy - (153 * mp + 2) / 5 + 1
  (if mp < 10 then mp + 3 else mp - 9, d)

/-- Year-of-era, month and day of a day-of-era. -/
def yoeMDOf (doe : Int) : Int × Int × Int :=
  let cr := centurySplit doe
  let qr := quadSplit cr.2
  let yr := yearSplit qr.2
  let md := monthSplit yr.2
  (100 * cr.1 + 4 * qr.1 + yr.1, md.1, md.2)

/-- Proleptic Gregorian date of a day count from the Unix epoch (the field
conversion used by Go's `Year`, `Month` and `Day` accessors). -/
def civilFromDays (z : Int) : Int × Int × Int :=
  let era : Int := (z + 719468) / 146097
  let doe : Int := z + 719468 - era * 146097
  let t := yoeMDOf doe
  let y : Int := t.1 + era * 400
  (if t.2.1 ≤ 2 then y + 1 else y, t.2.1, t.2.2)

theorem centurySplit_spec (doe : Int) (h0 : 0 ≤ doe) (h1 : doe ≤ 146096) :
    0 ≤ (centurySplit doe).1 ∧ (centurySplit doe).1 ≤ 3 ∧
    0 ≤ (centurySplit doe).2 ∧ (centurySplit doe).2 ≤ 36524 ∧
    36524 * (centurySplit doe).1 + (centurySplit doe).2 = doe := by
  unfold centurySplit
  simp only []
  split_ifs <;> omega

theorem quadSplit_spec (r : Int) (h0 : 0 ≤ r) (h1 : r ≤ 36524) :
    0 ≤ (quadSplit r).1 ∧ (quadSplit r).1 ≤ 24 ∧
    0 ≤ (quadSplit r).2 ∧ (quadSplit r).2 ≤ 1460 ∧
    1461 * (quadSplit r).1 + (quadSplit r).2 = r := by
  unfold quadSplit
  simp only []
  omega

theorem yearSplit_spec (rq : Int) (h0 : 0 ≤ rq) (h1 : rq ≤ 1460) :
    0 ≤ (yearSplit rq).1 ∧ (yearSplit rq).1 ≤ 3 ∧
    0 ≤ (yearSplit rq).2 ∧ (yearSplit rq).2 ≤ 365 ∧
    365 * (yearSplit rq).1 + (yearSplit rq).2 = rq := by
  unfold yearSplit
  simp only []
  split_ifs <;> omega

theorem monthSplit_spec (doy : Int) (h0 : 0 ≤ doy) (h1 : doy ≤ 365) :
    1 ≤ (monthSplit doy).1 ∧ (monthSplit doy).1 ≤ 12 ∧
    1 ≤ (monthSplit doy).2 ∧ (monthSplit doy).2 ≤ 31 ∧
    (153 * (if 2 < (monthSplit doy).1 then (monthSplit doy).1 - 3
            else (monthSplit doy).1 + 9) + 2) / 5 + (monthSplit doy).2 - 1 = doy := by
  unfold monthSplit
  simp only []
  split_ifs <;> omega

theorem dys_of_parts (c q yq : Int) (hq1 : q ≤ 24) (hy0 : 0 ≤ yq) (hy1 : yq ≤ 3)
    (hq0 : 0 ≤ q) :
    (100 * c + 4 * q + yq) * 365 + (100 * c + 4 * q + yq) / 4 - (100 * c + 4 * q + yq) / 100 =
      36524 * c + 1461 * q + 365 * yq := by
  omega

theorem yoeMD_spec (doe : Int) (h0 : 0 ≤ doe) (h1 : doe ≤ 146096) :
    0 ≤ (yoeMDOf doe).1 ∧ (yoeMDOf doe).1 ≤ 399 ∧
    1 ≤ (yoeMDOf doe).2.1 ∧ (yoeMDOf doe).2.1 ≤ 12 ∧
    1 ≤ (yoeMDOf doe).2.2 ∧ (yoeMDOf doe).2.2 ≤ 31 ∧
    (yoeMDOf doe).1 * 365 + (yoeMDOf doe).1 / 4 - (yoeMDOf doe).1 / 100 +
      ((153 * (if 2 < (yoeMDOf doe).2.1 then (yoeMDOf doe).2.1 - 3
               else (yoeMDOf doe).2.1 + 9) + 2) / 5 + (yoeMDOf doe).2.2 - 1) = doe := by
  have hcr := centurySplit_spec doe h0 h1
  have hqr := quadSplit_spec (centurySplit doe).2 hcr.2.2.1 hcr.2.2.2.1
  have hyr := yearSplit_spec (quadSplit (centurySplit doe).2).2 hqr.2.2.1 hqr.2.2.2.1
  have hmd := monthSplit_spec (yearSplit (quadSplit (centurySplit doe).2).2).2
    hyr.2.2.1 hyr.2.2.2.1
  have hdys := dys_of_parts (centurySplit doe).1 (quadSplit (centurySplit doe).2).1
    (yearSplit (quadSplit (centurySplit doe).2).2).1
    hqr.2.1 hyr.1 hyr.2.1 hqr.1
  unfold yoeMDOf
  simp only []
  refine ⟨by omega, by omega, hmd.1, hmd.2.1, hmd.2.2.1, hmd.2.2.2.1, ?_⟩
  rw [hdys]
  omega

theorem civil_month_day_ranges (z : Int) :
    1 ≤ (civilFromDays z).2.1 ∧ (civilFromDays z).2.1 ≤ 12 ∧
    1 ≤ (civilFromDays z).2.2 ∧ (civilFromDays z).2.2 ≤ 31 := by
  unfold civilFromDays
  simp only []
  have h := yoeMD_spec (z + 719468 - (z + 719468) / 146097 * 146097) (by omega) (by omega)
  exact ⟨h.2.2.1, h.2.2.2.1, h.2.2.2.2.1, h.2.2.2.2.2.1⟩

theorem era_yoe_extract (era yoe : Int) (h0 : 0 ≤ yoe) (h1 : yoe ≤ 399) :
    (yoe + era * 400) / 400 = era ∧
    yoe + era * 400 - (yoe + era * 400) / 400 * 400 = yoe := by
  omega

/-- The date conversions are mutual inverses: converting a day count to a
calendar date and back is the identity. -/
theorem days_civil_roundtrip (z : Int) :
    daysFromCivil (civilFromDays z).1 (civilFromDays z).2.1 (civilFromDays z).2.2 = z := by
  have h := yoeMD_spec (z + 719468 - (z + 719468) / 146097 * 146097) (by omega) (by omega)
  unfold civilFromDays
  simp only []
  generalize hg : yoeMDOf (z + 719468 - (z + 719468) / 146097 * 146097) = t at h
  obtain ⟨yoe, m, d⟩ := t
  simp only [] at h ⊢
  unfold daysFromCivil
  simp only []
  have hY : (if m ≤ 2 then
        (if m ≤ 2 then yoe + (z + 719468) / 146097 * 400 + 1
         else yoe + (z + 719468) / 146097 * 400) - 1
      else (if m ≤ 2 then yoe + (z + 719468) / 146097 * 400 + 1
            else yoe + (z + 719468) / 146097 * 400)) =
      yoe + (z + 719468) / 146097 * 400 := by
    split_ifs <;> ring
  rw [hY]
  have hex := era_yoe_extract ((z + 719468) / 146097) yoe h.1 h.2.1
  rw [hex.2, hex.1]
  split_ifs at h ⊢ <;> omega

theorem daysFromCivil_succ_day (y m d : Int) :
    daysFromCivil y m (d + 1) = daysFromCivil y m d + 1 := by
  unfold daysFromCivil
  split_ifs <;> ring

-- Sanity: the conversions agree with the calendar on concrete dates,
-- including the dates exercised by the repository's tests.
example : daysFromCivil 1970 1 1 = 0 := by decide
example : daysFromCivil 2020 2 14 = 18306 := by decide
example : civilFromDays 18306 = (2020, 2, 14) := by decide
example : civilFromDays 0 = (1970, 1, 1) := by decide
example : civilFromDays (-1) = (1969, 12, 31) := by decide
example : civilFromDays 18321 = (2020, 2, 29) := by decide
example : civilFromDays 18322 = (2020, 3, 1) := by decide
example : civilFromDays 11016 = (2000, 2, 29) := by decide
example : civilFromDays (-25509) = (1900, 2, 28) := by decide
example : civilFromDays (-25508) = (1900, 3, 1) := by decide
example : civilFromDays 20498 = (2026, 2, 14) := by decide
example : civilFromDays 18336 = (2020, 3, 15) := by decide
example : civilFromDays 18447 = (2020, 7, 4) := by decide

/-! ## The Go `time` model -/

def nsPerSec : Int := 1000000000
def nsPerMin : Int := 60 * nsPerSec
def nsPerHour : Int := 3600 * nsPerSec
def nsPerDay : Int := 86400 * nsPerSec

/-- A Go `time.Time` restricted to fixed-offset locations: an absolute
nanosecond count since the Unix epoch plus the zone offset in seconds east
of UTC (the offset a `time.FixedZone` reports for every instant). -/
@[ext]
structure GoTime where
  absNs : Int
  loc : Int
deriving DecidableEq

/-- Local (wall-clock) nanoseconds since the epoch. -/
def localNs (t : GoTime) : Int := t.absNs + t.loc * nsPerSec

/-- Calendar day number (days since 1970-01-01) of the instant in its zone. -/
def days (t : GoTime) : Int := localNs t / nsPerDay

/-- Nanoseconds since the most recent local midnight. -/
def timeOfDayNs (t : GoTime) : Int := localNs t % nsPerDay

/-- `t.Year()`. -/
def year (t : GoTime) : Int := (civilFromDays (days t)).1

/-- `int(t.Month())`. -/
def month (t : GoTime) : Int := (civilFromDays (days t)).2.1

/-- `t.Day()`. -/
def day (t : GoTime) : Int := (civilFromDays (days t)).2.2

/-- `t.Hour()`. -/
def hour (t : GoTime) : Int := timeOfDayNs t / nsPerHour

/-- `t.Minute()`. -/
def minute (t : GoTime) : Int := timeOfDayNs t % nsPerHour / nsPerMin

/-- `t.Second()`. -/
def second (t : GoTime) : Int := timeOfDayNs t % nsPerMin / nsPerSec

/-- `t.Nanosecond()`. -/
def nanosecond (t : GoTime) : Int := timeOfDayNs t % nsPerSec

/-- Go's `time.Date(y, m, d, hh, mm, ss, ns, loc)` for a fixed-offset
location.  The month is normalized into 1..12 first (adjusting the year);
all other out-of-range components carry over by plain arithmetic, exactly
as `time.Date` computes the absolute time. -/
def goDate (y m d hh mm ss ns loc : Int) : GoTime :=
  let yn : Int := y + (m - 1) / 12
  let mn : Int := (m - 1) % 12 + 1
  let lns : Int := daysFromCivil yn mn d * nsPerDay +
    (hh * nsPerHour + mm * nsPerMin + ss * nsPerSec + ns)
  ⟨lns - loc * nsPerSec, loc⟩

/-- `t.AddDate(y, m, d)`: Go re-derives the civil fields and calls `Date`. -/
def AddDate (t : GoTime) (y m d : Int) : GoTime :=
  goDate (year t + y) (month t + m) (day t + d) (hour t) (minute t) (second t)
    (nanosecond t) t.loc

/-- `t.Sub(u)` in nanoseconds (saturation at the `int64` range not modelled;
no duration in this development approaches it). -/
def Sub (t u : GoTime) : Int := t.absNs - u.absNs

/-! ### Basic time lemmas -/

theorem days_timeOfDay (t : GoTime) :
    localNs t = days t * nsPerDay + timeOfDayNs t ∧
    0 ≤ timeOfDayNs t ∧ timeOfDayNs t < nsPerDay := by
  unfold days timeOfDayNs nsPerDay nsPerSec
  omega

theorem clock_decomposition (t : GoTime) :
    hour t * nsPerHour + minute t * nsPerMin + second t * nsPerSec + nanosecond t =
      timeOfDayNs t := by
  unfold hour minute second nanosecond nsPerHour nsPerMin nsPerSec
  omega

theorem month_valid (t : GoTime) : 1 ≤ month t ∧ month t ≤ 12 :=
  ⟨(civil_month_day_ranges (days t)).1, (civil_month_day_ranges (days t)).2.1⟩

theorem goDate_loc (y m d hh mm ss ns loc : Int) :
    (goDate y m d hh mm ss ns loc).loc = loc := rfl

theorem goDate_localNs_of_month_valid (y m d hh mm ss ns loc : Int)
    (h1 : 1 ≤ m) (h2 : m ≤ 12) :
    localNs (goDate y m d hh mm ss ns loc) =
      daysFromCivil y m d * nsPerDay +
        (hh * nsPerHour + mm * nsPerMin + ss * nsPerSec + ns) := by
  unfold goDate localNs
  simp only []
  have hy : y + (m - 1) / 12 = y := by omega
  have hm : (m - 1) % 12 + 1 = m := by omega
  rw [hy, hm]
  ring

/-- If the local nanoseconds of `x` decompose as `d` whole days plus a
remainder in `[0, nsPerDay)`, then `d` is `x`'s day number and the
remainder its time of day. -/
theorem days_of_decomp (x : GoTime) (d r : Int) (h : localNs x = d * nsPerDay + r)
    (h0 : 0 ≤ r) (h1 : r < nsPerDay) : days x = d ∧ timeOfDayNs x = r := by
  unfold days timeOfDayNs
  rw [h]
  unfold nsPerDay nsPerSec at h1 ⊢
  omega

/-- `daysFromCivil` inverts the accessors: the civil fields of `t` convert
back to `t`'s day number. -/
theorem daysFromCivil_accessors (t : GoTime) :
    daysFromCivil (year t) (month t) (day t) = days t :=
  days_civil_roundtrip (days t)

/-! ## The boundary clock (`writer.go` lines 364-405) -/

/-- `extraDuration`: `time.Duration(time.Microsecond)`, in nanoseconds. -/
def extraDuration : Int := 1000

/-- `getLastMidnight(now)`: midnight at the beginning of the day of the
given time (`writer.go` line 388). -/
def getLastMidnight (now : GoTime) : GoTime :=
  goDate (year now) (month now) (day now) 0 0 0 0 now.loc

/-- `getNextMidnight(givenTime)`: midnight at the beginning of the day
after the given time, via calendar-day addition (`writer.go` line 393). -/
def getNextMidnight (givenTime : GoTime) : GoTime :=
  let nextDay := AddDate givenTime 0 0 1
  goDate (year nextDay) (month nextDay) (day nextDay) 0 0 0 0 givenTime.loc

/-- `getDurationToJustAfterMidnight(givenTime)` (`writer.go` line 371),
with the fixed `extraDuration` generalized to a parameter `eps` so that the
spec's `durationUntilJustAfter(instant, epsilon)` can be stated. -/
def getDurationToJustAfterMidnightEps (givenTime : GoTime) (eps : Int) : Int :=
  let nextMidnight := getNextMidnight givenTime
  let durationToWait := Sub nextMidnight givenTime
  durationToWait + eps

/-- `getDurationToJustAfterMidnight(givenTime)` exactly as in the source. -/
def getDurationToJustAfterMidnight (givenTime : GoTime) : Int :=
  getDurationToJustAfterMidnightEps givenTime extraDuration

theorem getLastMidnight_localNs (t : GoTime) :
    localNs (getLastMidnight t) = days t * nsPerDay ∧ (getLastMidnight t).loc = t.loc := by
  have h := goDate_localNs_of_month_valid (year t) (month t) (day t) 0 0 0 0 t.loc
    (month_valid t).1 (month_valid t).2
  rw [daysFromCivil_accessors] at h
  unfold getLastMidnight
  rw [h]
  exact ⟨by ring, goDate_loc ..⟩

theorem addDate_one_day (t : GoTime) :
    days (AddDate t 0 0 1) = days t + 1 ∧
    timeOfDayNs (AddDate t 0 0 1) = timeOfDayNs t ∧
    (AddDate t 0 0 1).loc = t.loc := by
  have hm := month_valid t
  have h := goDate_localNs_of_month_valid (year t + 0) (month t + 0) (day t + 1)
    (hour t) (minute t) (second t) (nanosecond t) t.loc (by omega) (by omega)
  have hy : year t + 0 = year t := by ring
  have hmo : month t + 0 = month t := by ring
  rw [hy, hmo] at h
  have hd : daysFromCivil (year t) (month t) (day t + 1) = days t + 1 := by
    rw [daysFromCivil_succ_day, daysFromCivil_accessors]
  rw [hd, clock_decomposition t] at h
  have htod := days_timeOfDay t
  have hx : AddDate t 0 0 1 = goDate (year t + 0) (month t + 0) (day t + 1)
      (hour t) (minute t) (second t) (nanosecond t) t.loc := rfl
  rw [hy, hmo] at hx
  rw [hx]
  have hdec := days_of_decomp _ (days t + 1) (timeOfDayNs t) h htod.2.1 htod.2.2
  exact ⟨hdec.1, hdec.2, goDate_loc ..⟩

theorem getNextMidnight_localNs (t : GoTime) :
    localNs (getNextMidnight t) = (days t + 1) * nsPerDay ∧
      (getNextMidnight t).loc = t.loc := by
  have hnd := addDate_one_day t
  have hm := month_valid (AddDate t 0 0 1)
  have h := goDate_localNs_of_month_valid (year (AddDate t 0 0 1))
    (month (AddDate t 0 0 1)) (day (AddDate t 0 0 1)) 0 0 0 0 t.loc hm.1 hm.2
  rw [daysFromCivil_accessors, hnd.1] at h
  unfold getNextMidnight
  simp only []
  rw [h]
  exact ⟨by ring, goDate_loc ..⟩

/-- The gap to the next midnight is the remainder of the current day. -/
theorem sub_nextMidnight (t : GoTime) :
    Sub (getNextMidnight t) t = nsPerDay - timeOfDayNs t := by
  have h := getNextMidnight_localNs t
  have htod := days_timeOfDay t
  unfold Sub
  have h1 : (getNextMidnight t).absNs = localNs (getNextMidnight t) - t.loc * nsPerSec := by
    unfold localNs
    rw [h.2]
    ring
  have h2 : t.absNs = localNs t - t.loc * nsPerSec := by
    unfold localNs
    ring
  rw [h1, h2, h.1, htod.1]
  ring

theorem timeOfDay_getLastMidnight (t : GoTime) :
    timeOfDayNs (getLastMidnight t) = 0 ∧ days (getLastMidnight t) = days t := by
  have h := getLastMidnight_localNs t
  have hd := days_of_decomp (getLastMidnight t) (days t) 0 (by rw [h.1]; ring)
    le_rfl (by unfold nsPerDay nsPerSec; omega)
  exact ⟨hd.2, hd.1⟩

theorem timeOfDay_getNextMidnight (t : GoTime) :
    timeOfDayNs (getNextMidnight t) = 0 ∧ days (getNextMidnight t) = days t + 1 := by
  have h := getNextMidnight_localNs t
  have hd := days_of_decomp (getNextMidnight t) (days t + 1) 0 (by rw [h.1]; ring)
    le_rfl (by unfold nsPerDay nsPerSec; omega)
  exact ⟨hd.2, hd.1⟩

/-! ## Claim theorems about the boundary clock -/

/-- C6: for every instant `t`, `getNextMidnight t` is strictly later than
`t`, is a midnight (time of day `00:00:00.000000000`) on the next calendar
day in `t`'s own time zone, `getLastMidnight` preserves the zone, and
consequently `getDurationToJustAfterMidnight` is strictly positive for
every input, so the background loop never busy-spins.  (The embedding
models fixed-offset zones; `getNextMidnight` is translated with the
source's calendar-day `AddDate(0,0,1)` step.) -/
theorem c6_nextMidnight_strictly_later (t : GoTime) :
    0 < Sub (getNextMidnight t) t ∧
    timeOfDayNs (getNextMidnight t) = 0 ∧
    (getNextMidnight t).loc = t.loc ∧
    days (getNextMidnight t) = days t + 1 ∧
    (getLastMidnight t).loc = t.loc ∧
    0 < getDurationToJustAfterMidnight t := by
  have hsub := sub_nextMidnight t
  have htod := days_timeOfDay t
  have hnm := timeOfDay_getNextMidnight t
  refine ⟨by omega, hnm.1, (getNextMidnight_localNs t).2, hnm.2,
    (getLastMidnight_localNs t).2, ?_⟩
  unfold getDurationToJustAfterMidnight getDurationToJustAfterMidnightEps extraDuration
  simp only []
  omega

/-- C3 (counterexample): at an instant that is exactly a midnight, the
computed duration is a full day plus `extraDuration`, not `extraDuration`:
the claimed "equality iff `t` is exactly a midnight" fails on the code. -/
theorem c3_counterexample :
    timeOfDayNs (goDate 2020 2 14 0 0 0 0 0) = 0 ∧
    getDurationToJustAfterMidnightEps (goDate 2020 2 14 0 0 0 0 0) extraDuration =
      nsPerDay + extraDuration ∧
    nsPerDay + extraDuration ≠ extraDuration := by
  refine ⟨by decide, by decide, by decide⟩

/-- C3 (amended): for every instant `t` and every `eps ≥ 0`,
`durationUntilJustAfter(t, eps)` is at least `eps` — in fact strictly
greater, for every `t` — and when `t` is exactly a midnight the result is
one full day plus `eps` (the gap to the *next* midnight), never zero or
negative. -/
theorem c3_amended_duration_bounds (t : GoTime) (eps : Int) (heps : 0 ≤ eps) :
    eps < getDurationToJustAfterMidnightEps t eps ∧
    (timeOfDayNs t = 0 → getDurationToJustAfterMidnightEps t eps = nsPerDay + eps) := by
  have hsub := sub_nextMidnight t
  have htod := days_timeOfDay t
  unfold getDurationToJustAfterMidnightEps
  simp only []
  omega

theorem c3_amended_duration_bounds_witness :
    0 ≤ (1000 : Int) ∧
    (1000 < getDurationToJustAfterMidnightEps (goDate 2020 7 4 12 5 0 0 7200) 1000 ∧
     (timeOfDayNs (goDate 2020 7 4 12 5 0 0 7200) = 0 →
      getDurationToJustAfterMidnightEps (goDate 2020 7 4 12 5 0 0 7200) 1000 =
        nsPerDay + 1000)) :=
  ⟨by decide, c3_amended_duration_bounds (goDate 2020 7 4 12 5 0 0 7200) 1000 (by decide)⟩

/-- C7: `getDurationToJustAfterMidnight` returns exactly the specified
values on the three concrete scenarios (22:59 local; 00:30:03.000000004
local; 12:05 local in a zone two hours ahead of UTC).  The embedded
function depends only on the given instant and its zone — there is no
ambient "host time zone" in the model, so the values hold regardless of
the writer's own location. -/
theorem c7_concrete_durations :
    getDurationToJustAfterMidnight (goDate 2020 2 14 22 59 0 0 0) =
      (3600 + 60) * nsPerSec + extraDuration ∧
    getDurationToJustAfterMidnight (goDate 2020 2 14 0 30 3 4 0) =
      (23 * 3600 + 29 * 60 + 56) * nsPerSec + 999999996 + extraDuration ∧
    getDurationToJustAfterMidnight (goDate 2020 7 4 12 5 0 0 7200) =
      (11 * 3600 + 55 * 60) * nsPerSec + extraDuration := by
  refine ⟨by decide, by decide, by decide⟩

/-! ## The writer model

`switchwriter` (external) holds a replaceable output target; `SwitchTo(nil)`
makes it discard writes.  The model represents the connection as
`sink : Option String` — the pathname of the file currently receiving
bytes, or `none`.  The filestore is an association list from pathnames to
byte contents; opening in `O_APPEND|O_CREATE` mode preserves content, and
writes append. -/

structure WState where
  loggingDisabled : Bool
  startOfToday : GoTime
  logDir : String
  leader : String
  trailer : String
  userName : String
  groupName : String
  logDirPermissions : Int
  logFilePermissions : Int
  sink : Option String
deriving DecidableEq

/-- Zero-pad a decimal string to at least `w` characters. -/
def padNum (w : Nat) (s : String) : String :=
  if s.length < w then String.mk (List.replicate (w - s.length) '0') ++ s else s

/-- Go's `fmt.Sprintf("%0*d", w, n)` for an integer `n` (sign included in
the width, zeros inserted after the sign). -/
def goPad (w : Nat) (n : Int) : String :=
  if n < 0 then "-" ++ padNum (w - 1) (toString n.natAbs) else padNum w (toString n.natAbs)

/-- `getLogPathname` (`writer.go` 327-331):
`fmt.Sprintf("%s/%s%04d-%02d-%02d%s", logDir, leader, Year, Month, Day, trailer)`. -/
def getLogPathname (dw : WState) (now : GoTime) : String :=
  dw.logDir ++ "/" ++ dw.leader ++ goPad 4 (year now) ++ "-" ++ goPad 2 (month now) ++
    "-" ++ goPad 2 (day now) ++ dw.trailer

/-- Modelled from the spec: zero-pad a (non-negative) number to the given
number of digits. -/
def zeroPad (w : Nat) (n : Nat) : String := padNum w (toString n)

/-- Modelled from the spec: `pathFor(directory, prefix, date, suffix) ->
directory + "/" + prefix + YYYY + "-" + MM + "-" + DD + suffix` with the
year zero-padded to four digits and month/day to two. -/
def pathForSpec (dir pre : String) (y m d : Nat) (suf : String) : String :=
  dir ++ "/" ++ pre ++ zeroPad 4 y ++ "-" ++ zeroPad 2 m ++ "-" ++ zeroPad 2 d ++ suf

/-- The filestore: pathnames and their contents. -/
def Files : Type := List (String × List UInt8)

instance : DecidableEq Files := by
  unfold Files
  infer_instance

/-- Content of a file (absent files read as empty, matching
create-on-open). -/
def content : Files → String → List UInt8
  | [], _ => []
  | (q, v) :: rest, p => if q = p then v else content rest p

/-- Append bytes to a file, creating it if absent. -/
def appendTo (p : String) (buf : List UInt8) : Files → Files
  | [] => [(p, buf)]
  | (q, v) :: rest => if q = p then (q, v ++ buf) :: rest else (q, v) :: appendTo p buf rest

theorem content_cons (q : String) (v : List UInt8) (rest : Files) (p : String) :
    content ((q, v) :: rest) p = if q = p then v else content rest p := rfl

theorem content_appendTo (p : String) (buf : List UInt8) (fs : Files) (x : String) :
    content (appendTo p buf fs) x =
      if x = p then content fs x ++ buf else content fs x := by
  induction fs with
  | nil =>
    rw [show appendTo p buf [] = [(p, buf)] from rfl, content_cons]
    by_cases h : x = p
    · rw [if_pos h.symm, if_pos h]
      rfl
    · rw [if_neg (fun he => h he.symm), if_neg h]
  | cons hd tl ih =>
    obtain ⟨q, v⟩ := hd
    rw [show appendTo p buf ((q, v) :: tl) =
      (if q = p then (q, v ++ buf) :: tl else (q, v) :: appendTo p buf tl) from rfl]
    by_cases h1 : q = p
    · rw [if_pos h1, content_cons, content_cons]
      by_cases h2 : q = x
      · rw [if_pos h2, if_pos (h1 ▸ h2.symm : x = p), if_pos h2]
      · rw [if_neg h2, if_neg (fun he : x = p => h2 (h1.symm ▸ he.symm : q = x)),
          if_neg h2]
    · rw [if_neg h1, content_cons, content_cons, ih]
      by_cases h2 : q = x
      · have hx : ¬x = p := fun he => h1 (h2.trans he)
        simp [h2, hx]
      · simp [h2]

/-- A writer together with the filestore it acts on. -/
structure MState where
  w : WState
  files : Files
deriving DecidableEq

/-- `closeLog` (`writer.go` 304-306): `switchwriter.SwitchTo(nil)`. -/
def closeLog (m : MState) : MState :=
  { m with w := { m.w with sink := none } }

/-- `openLog` (`writer.go` 310-323), success path: computes the pathname
for `startOfToday` and switches the switchwriter to that file.  (On an
`os.OpenFile` failure the real code aborts the process — see `openFile`
below and claim C2 — so no failing branch reaches `SwitchTo`.) -/
def openLog (m : MState) : MState :=
  { m with w := { m.w with sink := some (getLogPathname m.w m.w.startOfToday) } }

/-- The assignment `dw.startOfToday = getLastMidnight(now)` inside
`rotateLogs` (`writer.go` line 265). -/
def setDay (now : GoTime) (m : MState) : MState :=
  { m with w := { m.w with startOfToday := getLastMidnight now } }

/-- `rotateLogs(now)` (`writer.go` 255-270): close, advance the day from
`now`, reopen.  (The mutex acquisition is modelled in the concurrent
machine below.) -/
def rotateLogs (now : GoTime) (m : MState) : MState :=
  openLog (setDay now (closeLog m))

/-- `Write` (`writer.go` 210-218): forward the buffer to the switchwriter;
with a `nil` target the switchwriter discards the bytes. -/
def writeBytes (buf : List UInt8) (m : MState) : MState :=
  match m.w.sink with
  | some p => { m with files := appendTo p buf m.files }
  | none => m

/-- `waitAndRotate(now)` (`writer.go` 245-252): sleeps via
`waitToRotate(now)` — no state effect — and then calls `rotateLogs(now)`
with the *same* `now` that was sampled before the sleep. -/
def waitAndRotate (now : GoTime) (m : MState) : MState :=
  rotateLogs now m

/-- `newWriter` (`writer.go` 104-130), success path of the filesystem
side effects: sets `startOfToday = getLastMidnight now` and opens today's
log. -/
def newWriter (now : GoTime) (logDir leader trailer : String)
    (dirPermissions filePermissions : Int) (userName groupName : String) : WState :=
  let startOfToday := getLastMidnight now
  let base : WState :=
    { loggingDisabled := false
      startOfToday := startOfToday
      logDir := logDir
      leader := leader
      trailer := trailer
      userName := userName
      groupName := groupName
      logDirPermissions := dirPermissions
      logFilePermissions := filePermissions
      sink := none }
  { base with sink := some (getLogPathname base startOfToday) }

theorem ymd_getLastMidnight (t : GoTime) :
    year (getLastMidnight t) = year t ∧ month (getLastMidnight t) = month t ∧
    day (getLastMidnight t) = day t := by
  have h := (timeOfDay_getLastMidnight t).2
  unfold year month day
  rw [h]
  exact ⟨rfl, rfl, rfl⟩

/-- C4: for every writer state and every instant `now` — arbitrarily far
from the writer's current day — `rotateLogs now` sets `startOfToday` to
`getLastMidnight now`, the midnight of the calendar day containing `now`
in `now`'s zone (not "previous day + 1"), and the newly opened sink is the
file named for the day of `now`. -/
theorem c4_rotate_rederives_day (m : MState) (now : GoTime) :
    (rotateLogs now m).w.startOfToday = getLastMidnight now ∧
    days (rotateLogs now m).w.startOfToday = days now ∧
    timeOfDayNs (rotateLogs now m).w.startOfToday = 0 ∧
    ((rotateLogs now m).w.startOfToday).loc = now.loc ∧
    (rotateLogs now m).w.sink = some (getLogPathname m.w (getLastMidnight now)) ∧
    getLogPathname m.w (getLastMidnight now) = getLogPathname m.w now := by
  have h1 := timeOfDay_getLastMidnight now
  have h2 := (getLastMidnight_localNs now).2
  have h3 := ymd_getLastMidnight now
  refine ⟨rfl, h1.2, h1.1, h2, rfl, ?_⟩
  unfold getLogPathname
  rw [h3.1, h3.2.1, h3.2.2]

/-! ## C1: the background cycle rotates with the pre-sleep timestamp -/

/-- The pre-sleep sample: 2020-02-14 23:59:59.5 in a +01:00 zone. -/
def rotSampleTime : GoTime := goDate 2020 2 14 23 59 59 500000000 3600

/-- A wake instant just after the following midnight. -/
def rotWakeTime : GoTime := goDate 2020 2 15 0 0 0 1000 3600

/-- A writer constructed on 2020-02-14 with leader `foo.`, trailer `.bar`. -/
def rotWriter0 : MState :=
  ⟨newWriter rotSampleTime "dir" "foo." ".bar" 0 0 "" "", []⟩

/-- C1 (code evaluated at the failing input): one cycle of the background
loop — sample `rotSampleTime` on day D, sleep past midnight waking at
`rotWakeTime`, then rotate — leaves `startOfToday` at the midnight of the
*old* day D (because `waitAndRotate` passes its pre-sleep argument to
`rotateLogs`), and reopens the old day's file `dir/foo.2020-02-14.bar`;
the new day's midnight `getLastMidnight rotWakeTime` is a different
instant.  This contradicts both the spec and the code's own comments
("rotate the log file using the new day as the date stamp"). -/
theorem c1_cycle_uses_pre_sleep_time :
    (waitAndRotate rotSampleTime rotWriter0).w.startOfToday =
      getLastMidnight rotSampleTime ∧
    getLastMidnight rotSampleTime ≠ getLastMidnight rotWakeTime ∧
    days (waitAndRotate rotSampleTime rotWriter0).w.startOfToday = days rotSampleTime ∧
    days rotWakeTime = days rotSampleTime + 1 ∧
    (waitAndRotate rotSampleTime rotWriter0).w.sink = some "dir/foo.2020-02-14.bar" := by
  refine ⟨rfl, by decide, by decide, by decide, by decide⟩

/-! ## C2: open failure aborts the process -/

/-- Result of running `openFile`: either it returns normally with the pair
`(file, error)`, or the process exits (`log.Fatal`). -/
inductive ProcResult where
  | ok (file : Option Unit) (err : Option String)
  | fatal
deriving DecidableEq

/-- `openFile` (`writer.go` 335-362).  `openResult` is the outcome of
`os.OpenFile` (`none` = error; Go then leaves `file` as a nil `*os.File`
and only logs).  The subsequent `file.Seek(0, 2)` on a nil `*os.File`
returns `os.ErrInvalid` (Go standard library behaviour), and a non-nil
seek error triggers `log.Fatal(err)`, which exits the process.
`seekResult` is the seek outcome on a successfully opened file.  Note the
function returns `(file, nil)` on every non-fatal path: the error is never
propagated. -/
def openFile (openResult : Option Unit) (seekResult : Option String) : ProcResult :=
  let file := openResult
  let seekErr : Option String :=
    match file with
    | none => some "invalid argument"
    | some _ => seekResult
  match seekErr with
  | some _ => ProcResult.fatal
  | none => ProcResult.ok file none

/-- C2 (code evaluated at the failing input): when `os.OpenFile` fails,
`openFile` reaches `log.Fatal` and the process exits — it does not return
a diagnostic and leave the writer with a no-op sink.  Moreover every
non-fatal run returns a `nil` error, so `openLog`'s error branch (the
"absent sink" handling at `writer.go` 316-320) is unreachable. -/
theorem c2_open_failure_aborts :
    (∀ s, openFile none s = ProcResult.fatal) ∧
    (∀ o s, openFile o s = ProcResult.fatal ∨ openFile o s = ProcResult.ok o none) := by
  constructor
  · intro s
    rfl
  · intro o s
    cases o with
    | none => exact Or.inl rfl
    | some u =>
      cases s with
      | none => exact Or.inr rfl
      | some e => exact Or.inl rfl

/-! ## C5: the pathname template -/

theorem goPad_nonneg (w : Nat) (n : Int) (h : 0 ≤ n) : goPad w n = zeroPad w n.toNat := by
  unfold goPad zeroPad
  rw [if_neg (by omega)]
  have hn : n.natAbs = n.toNat := by omega
  rw [hn]

/-- C5: for every directory, prefix, suffix and date (with a non-negative
year; months and days are always in range), the generated log pathname is
exactly `directory + "/" + prefix + YYYY + "-" + MM + "-" + DD + suffix`
with the year zero-padded to four digits and month/day to two, as the spec
describes. -/
theorem c5_pathname_matches_template (dw : WState) (now : GoTime) (hy : 0 ≤ year now) :
    getLogPathname dw now =
      pathForSpec dw.logDir dw.leader (year now).toNat (month now).toNat (day now).toNat
        dw.trailer := by
  have hm := civil_month_day_ranges (days now)
  unfold getLogPathname pathForSpec
  rw [goPad_nonneg 4 (year now) hy,
    goPad_nonneg 2 (month now) (by unfold month; omega),
    goPad_nonneg 2 (day now) (by unfold day; omega)]

/-- The writer used by the pathname witness (leader `payments.`, trailer
`.log`). -/
def pathW : WState :=
  newWriter (goDate 2026 2 14 9 0 0 0 0) "logs" "payments." ".log" 0 0 "" ""

theorem c5_pathname_matches_template_witness :
    0 ≤ year (goDate 2026 2 14 9 0 0 0 0) ∧
    getLogPathname pathW (goDate 2026 2 14 9 0 0 0 0) = "logs/payments.2026-02-14.log" :=
  ⟨by decide,
   (c5_pathname_matches_template pathW (goDate 2026 2 14 9 0 0 0 0) (by decide)).trans
     (by decide)⟩

/-! ## C10: dynamic typing of the optional constructor arguments -/

/-- A value of Go's `any` as passed to `New`'s variadic parameter: an
`int`, a `string`, or a value of any other dynamic type (for which both
type assertions in `getLogFileDetails` fail). -/
inductive GoVal where
  | vint (n : Int)
  | vstring (s : String)
  | vother
deriving DecidableEq

/-- `os.FileMode(u)` for `u : int`: conversion to `uint32`. -/
def goFileMode (u : Int) : Int := u % 4294967296

/-- One positional `args[i].(int)` comma-ok assertion: the converted value
on success, the zero value otherwise. -/
def intArgValue : Option GoVal → Int
  | some (GoVal.vint u) => goFileMode u
  | _ => 0

/-- One positional `args[i].(string)` comma-ok assertion with
`strings.TrimSpace` applied on success. -/
def stringArgValue : Option GoVal → String
  | some (GoVal.vstring s) => s.trim
  | _ => ""

/-- `getLogFileDetails` (`writer.go` 133-172): positional comma-ok type
assertions; a failed assertion leaves the zero value.  (`strings.TrimSpace`
is modelled by `String.trim`.)  The source's early return for an empty
argument list coincides with all four lookups missing. -/
def getLogFileDetails (args : List GoVal) : Int × Int × String × String :=
  let dirPermissions : Int := intArgValue args[0]?
  let filePermissions : Int := intArgValue args[1]?
  let userName : String := stringArgValue args[2]?
  let groupName : String := stringArgValue args[3]?
  (dirPermissions, filePermissions, userName, groupName)

/-- The optional-argument processing in `New` (`writer.go` 86-92): under
Windows the optional arguments are not examined at all and every setting
keeps its zero value. -/
def newOptDetails (osName : String) (args : List GoVal) : Int × Int × String × String :=
  if osName ≠ "windows" then getLogFileDetails args else (0, 0, "", "")

def isIntArg : Option GoVal → Bool
  | some (GoVal.vint _) => true
  | _ => false

def isStringArg : Option GoVal → Bool
  | some (GoVal.vstring _) => true
  | _ => false

theorem intCase_default (o : Option GoVal) (ho : isIntArg o = false) :
    intArgValue o = 0 := by
  rcases o with _ | v
  · rfl
  · rcases v with n | s | _
    · exact absurd ho (by simp [isIntArg])
    · rfl
    · rfl

theorem stringCase_default (o : Option GoVal) (ho : isStringArg o = false) :
    stringArgValue o = "" := by
  rcases o with _ | v
  · rfl
  · rcases v with n | s | _
    · rfl
    · exact absurd ho (by simp [isStringArg])
    · rfl

/-- C10: for every optional-argument list, an argument whose dynamic type
is not the expected one (int at positions 0 and 1, string at positions 2
and 3) is silently treated as absent — the corresponding setting keeps its
zero/empty default — and the processing is a total function (it never
fails or panics); under Windows all optional arguments are ignored
entirely. -/
theorem c10_mistyped_args_ignored (args : List GoVal) :
    (isIntArg args[0]? = false → (getLogFileDetails args).1 = 0) ∧
    (isIntArg args[1]? = false → (getLogFileDetails args).2.1 = 0) ∧
    (isStringArg args[2]? = false → (getLogFileDetails args).2.2.1 = "") ∧
    (isStringArg args[3]? = false → (getLogFileDetails args).2.2.2 = "") ∧
    newOptDetails "windows" args = (0, 0, "", "") := by
  refine ⟨fun h => intCase_default args[0]? h, fun h => intCase_default args[1]? h,
    fun h => stringCase_default args[2]? h, fun h => stringCase_default args[3]? h, ?_⟩
  unfold newOptDetails
  rw [if_neg (by simp)]

/-- Mis-typed arguments at every position: a non-int/non-string value
where an int is expected, a string where an int is expected, ints where
strings are expected (as in the repository's own `TestLogging`, which
passes `os.FileMode` and misordered arguments). -/
def argsW : List GoVal := [GoVal.vother, GoVal.vstring "0700", GoVal.vint 3, GoVal.vint 4]

theorem c10_mistyped_args_ignored_witness :
    (getLogFileDetails argsW).1 = 0 ∧ (getLogFileDetails argsW).2.1 = 0 ∧
    (getLogFileDetails argsW).2.2.1 = "" ∧ (getLogFileDetails argsW).2.2.2 = "" ∧
    newOptDetails "windows" argsW = (0, 0, "", "") :=
  ⟨(c10_mistyped_args_ignored argsW).1 (by decide),
   (c10_mistyped_args_ignored argsW).2.1 (by decide),
   (c10_mistyped_args_ignored argsW).2.2.1 (by decide),
   (c10_mistyped_args_ignored argsW).2.2.2.1 (by decide),
   (c10_mistyped_args_ignored argsW).2.2.2.2⟩

/-! ## C8: monotonicity of `startOfToday` -/

/-- A call sequence against the writer: foreground `Write`s and
(background) `rotateLogs` invocations with their sampled instants. -/
inductive WOp where
  | write (buf : List UInt8)
  | rotate (t : GoTime)
deriving DecidableEq

def applyOp : WOp → MState → MState
  | WOp.write buf, m => writeBytes buf m
  | WOp.rotate t, m => rotateLogs t m

def runOps (ops : List WOp) (m : MState) : MState :=
  ops.foldl (fun s o => applyOp o s) m

/-- The rotation instants of the sequence are drawn from one fixed zone
and have non-decreasing calendar days, starting no earlier than day `d` —
true of samples of a monotone wall clock in a fixed zone, as `time.Now()`
provides. -/
def monoOps (loc0 : Int) (d : Int) : List WOp → Bool
  | [] => true
  | WOp.write _ :: rest => monoOps loc0 d rest
  | WOp.rotate t :: rest =>
    decide (t.loc = loc0) && decide (d ≤ days t) && monoOps loc0 (days t) rest

/-- The midnight starting calendar day `d` in a zone `loc` seconds east. -/
def midnightAt (d loc : Int) : GoTime := ⟨d * nsPerDay - loc * nsPerSec, loc⟩

/-- The absolute instant of a writer's `startOfToday`. -/
def startAbs (m : MState) : Int := m.w.startOfToday.absNs

theorem writeBytes_w (buf : List UInt8) (m : MState) : (writeBytes buf m).w = m.w := by
  unfold writeBytes
  rcases h : m.w.sink with _ | p <;> simp [h]

theorem getLastMidnight_eq_midnightAt (t : GoTime) :
    getLastMidnight t = midnightAt (days t) t.loc := by
  have h := getLastMidnight_localNs t
  have habs : (getLastMidnight t).absNs = days t * nsPerDay - t.loc * nsPerSec := by
    have h1 := h.1
    unfold localNs at h1
    rw [h.2] at h1
    unfold nsPerDay nsPerSec at h1 ⊢
    omega
  ext
  · exact habs
  · exact h.2

theorem runOps_startOfToday_mono (ops : List WOp) : ∀ (loc0 d : Int) (m : MState),
    m.w.startOfToday = midnightAt d loc0 → monoOps loc0 d ops = true → ∀ k : Nat,
    (runOps (List.take k ops) m).w.startOfToday.absNs ≤
      (runOps (List.take (k + 1) ops) m).w.startOfToday.absNs := by
  induction ops with
  | nil =>
    intro loc0 d m hm hops k
    simp [runOps]
  | cons op rest ih =>
    intro loc0 d m hm hops k
    cases k with
    | zero =>
      have e1 : runOps (List.take 0 (op :: rest)) m = m := rfl
      have e2 : runOps (List.take 1 (op :: rest)) m = applyOp op m := rfl
      rw [e1, e2]
      cases op with
      | write buf =>
        have hw : (applyOp (WOp.write buf) m).w = m.w := writeBytes_w buf m
        rw [hw]
      | rotate t =>
        unfold monoOps at hops
        simp only [Bool.and_eq_true, decide_eq_true_eq] at hops
        obtain ⟨⟨hloc, hd⟩, _⟩ := hops
        have hrot : (applyOp (WOp.rotate t) m).w.startOfToday = getLastMidnight t := rfl
        rw [hrot, hm, getLastMidnight_eq_midnightAt t, hloc]
        unfold midnightAt nsPerDay nsPerSec
        simp only []
        omega
    | succ k' =>
      have e1 : ∀ (l : List WOp) (m' : MState), runOps (op :: l) m' = runOps l (applyOp op m') :=
        fun _ _ => rfl
      have e2 : List.take (k' + 1) (op :: rest) = op :: List.take k' rest := rfl
      have e3 : List.take (k' + 1 + 1) (op :: rest) = op :: List.take (k' + 1) rest := rfl
      rw [e2, e3, e1, e1]
      cases op with
      | write buf =>
        have hw : (applyOp (WOp.write buf) m).w = m.w := writeBytes_w buf m
        exact ih loc0 d (applyOp (WOp.write buf) m) (by rw [hw]; exact hm) hops k'
      | rotate t =>
        unfold monoOps at hops
        simp only [Bool.and_eq_true, decide_eq_true_eq] at hops
        obtain ⟨⟨hloc, hd⟩, hrest⟩ := hops
        have hrot : (applyOp (WOp.rotate t) m).w.startOfToday = getLastMidnight t := rfl
        refine ih loc0 (days t) (applyOp (WOp.rotate t) m) ?_ hrest k'
        rw [hrot, getLastMidnight_eq_midnightAt t, hloc]

/-- C8 (counterexample): `rotateLogs` accepts an arbitrary instant, so a
sequence of operations — here a single rotation whose instant precedes the
construction instant, as the package-private API and the repository's own
tests permit — moves `startOfToday` strictly earlier.  The claim's "no
sequence of Write and rotateLogs operations" is therefore false without a
clock-monotonicity assumption. -/
theorem c8_counterexample :
    startAbs (runOps [WOp.rotate (goDate 2020 2 14 12 0 0 0 0)]
        ⟨newWriter (goDate 2020 2 15 12 0 0 0 0) "." "foo." ".bar" 0 0 "" "", []⟩) <
      startAbs ⟨newWriter (goDate 2020 2 15 12 0 0 0 0) "." "foo." ".bar" 0 0 "" "", []⟩ := by
  decide

/-- C8 (amended): `startOfToday` is set at construction to
`getLastMidnight now`, `Write` never modifies the writer state, and for
every operation sequence whose rotation instants are drawn from one fixed
zone with non-decreasing days — as successive `time.Now()` samples are —
`startOfToday` is monotonically non-decreasing along the trace. -/
theorem c8_amended_monotone (now0 : GoTime) (logDir leader trailer : String)
    (dp fp : Int) (un gn : String) (f0 : Files) (ops : List WOp) (k : Nat)
    (hops : monoOps now0.loc (days now0) ops = true) :
    (newWriter now0 logDir leader trailer dp fp un gn).startOfToday =
      getLastMidnight now0 ∧
    (∀ (buf : List UInt8) (m' : MState), (writeBytes buf m').w = m'.w) ∧
    startAbs (runOps (List.take k ops)
        ⟨newWriter now0 logDir leader trailer dp fp un gn, f0⟩) ≤
      startAbs (runOps (List.take (k + 1) ops)
        ⟨newWriter now0 logDir leader trailer dp fp un gn, f0⟩) := by
  refine ⟨rfl, writeBytes_w, ?_⟩
  exact runOps_startOfToday_mono ops now0.loc (days now0)
    ⟨newWriter now0 logDir leader trailer dp fp un gn, f0⟩
    (getLastMidnight_eq_midnightAt now0) hops k

theorem c8_amended_monotone_witness :
    monoOps (goDate 2020 2 14 23 0 0 0 3600).loc (days (goDate 2020 2 14 23 0 0 0 3600))
      [WOp.write [104], WOp.rotate (goDate 2020 2 15 0 0 0 1000 3600), WOp.write [105]] =
      true ∧
    ((newWriter (goDate 2020 2 14 23 0 0 0 3600) "." "foo." ".bar" 0 0 "" "").startOfToday =
      getLastMidnight (goDate 2020 2 14 23 0 0 0 3600) ∧
    (∀ (buf : List UInt8) (m' : MState), (writeBytes buf m').w = m'.w) ∧
    startAbs (runOps (List.take 1 [WOp.write [104],
        WOp.rotate (goDate 2020 2 15 0 0 0 1000 3600), WOp.write [105]])
        ⟨newWriter (goDate 2020 2 14 23 0 0 0 3600) "." "foo." ".bar" 0 0 "" "", []⟩) ≤
      startAbs (runOps (List.take 2 [WOp.write [104],
        WOp.rotate (goDate 2020 2 15 0 0 0 1000 3600), WOp.write [105]])
        ⟨newWriter (goDate 2020 2 14 23 0 0 0 3600) "." "foo." ".bar" 0 0 "" "", []⟩)) :=
  ⟨by decide,
   c8_amended_monotone (goDate 2020 2 14 23 0 0 0 3600) "." "foo." ".bar" 0 0 "" "" []
     [WOp.write [104], WOp.rotate (goDate 2020 2 15 0 0 0 1000 3600), WOp.write [105]] 1
     (by decide)⟩

/-! ## C9: the mutex machine

`Write` and `rotateLogs` both run their whole body between `Lock` and
`Unlock` of the writer's single mutex (`writer.go` 210-218 and 255-270).
The machine below interleaves the instructions of N `Write` callers and
one rotator arbitrarily; only `acq` (blocks while the lock is held) and
`rel` are guarded, so mutual exclusion of the bodies is proved, not
assumed. -/

inductive Instr where
  | acq
  | rel
  | wbytes (buf : List UInt8)
  | closeI
  | setDayI (t : GoTime)
  | openI
deriving DecidableEq

/-- Effect of one instruction on the shared state (`acq`/`rel` only touch
the lock). -/
def effInstr : Instr → MState → MState
  | Instr.acq, m => m
  | Instr.rel, m => m
  | Instr.wbytes buf, m => writeBytes buf m
  | Instr.closeI, m => closeLog m
  | Instr.setDayI t, m => setDay t m
  | Instr.openI, m => openLog m

/-- The body of `Write` at mutex granularity: lock, forward the buffer to
the switchwriter, unlock. -/
def writeProg (buf : List UInt8) : List Instr :=
  [Instr.acq, Instr.wbytes buf, Instr.rel]

/-- The body of `rotateLogs` at mutex granularity: lock, close, advance
the day, reopen, unlock. -/
def rotateProg (t : GoTime) : List Instr :=
  [Instr.acq, Instr.closeI, Instr.setDayI t, Instr.openI, Instr.rel]

/-- A configuration of the concurrent system: the remaining program of
every thread, the mutex owner, and the shared state. -/
structure Config where
  progs : Nat → List Instr
  lock : Option Nat
  st : MState

/-- One interleaving step: any thread may run its next instruction; `acq`
requires the lock to be free and takes it, `rel` requires ownership and
releases it; no other instruction is guarded. -/
def stepG (c c' : Config) : Prop :=
  ∃ i instr rest, c.progs i = instr :: rest ∧
    c'.progs = Function.update c.progs i rest ∧
    c'.st = effInstr instr c.st ∧
    (match instr with
     | Instr.acq => c.lock = none ∧ c'.lock = some i
     | Instr.rel => c.lock = some i ∧ c'.lock = none
     | _ => c'.lock = c.lock)

/-- Arbitrary interleavings: the reflexive-transitive closure of `stepG`. -/
def Exec : Config → Config → Prop := Relation.ReflTransGen stepG

/-- N concurrent `Write(bufs[i])` callers (threads `0..N-1`) racing one
`rotateLogs t` (thread `N`) against a writer `w0` over filestore `f0`. -/
def initConfig (bufs : List (List UInt8)) (t : GoTime) (m0 : MState) : Config :=
  { progs := fun i =>
      if i < bufs.length then writeProg (bufs.getD i [])
      else if i = bufs.length then rotateProg t
      else []
    lock := none
    st := m0 }

/-- Deterministic runner for a given schedule, used to exhibit concrete
executions: run thread `i`'s next instruction if its guard allows. -/
def runStep (i : Nat) (c : Config) : Option Config :=
  match c.progs i with
  | [] => none
  | Instr.acq :: rest =>
    match c.lock with
    | none => some ⟨Function.update c.progs i rest, some i, c.st⟩
    | some _ => none
  | Instr.rel :: rest =>
    if c.lock = some i then some ⟨Function.update c.progs i rest, none, c.st⟩
    else none
  | Instr.wbytes buf :: rest =>
    some ⟨Function.update c.progs i rest, c.lock, writeBytes buf c.st⟩
  | Instr.closeI :: rest =>
    some ⟨Function.update c.progs i rest, c.lock, closeLog c.st⟩
  | Instr.setDayI u :: rest =>
    some ⟨Function.update c.progs i rest, c.lock, setDay u c.st⟩
  | Instr.openI :: rest =>
    some ⟨Function.update c.progs i rest, c.lock, openLog c.st⟩

def runSched : List Nat → Config → Option Config
  | [], c => some c
  | i :: sched, c =>
    match runStep i c with
    | some c' => runSched sched c'
    | none => none

theorem runStep_sound (i : Nat) (c c' : Config) (h : runStep i c = some c') :
    stepG c c' := by
  unfold runStep at h
  split at h
  · exact absurd h (by simp)
  case _ rest heq =>
    split at h
    case _ hl =>
      simp only [Option.some.injEq] at h
      exact ⟨i, Instr.acq, rest, heq, by rw [← h], by rw [← h]; rfl, by rw [← h]; exact ⟨hl, rfl⟩⟩
    case _ j hl =>
      exact absurd h (by simp)
  case _ rest heq =>
    split at h
    case isTrue hl =>
      simp only [Option.some.injEq] at h
      exact ⟨i, Instr.rel, rest, heq, by rw [← h], by rw [← h]; rfl, by rw [← h]; exact ⟨hl, rfl⟩⟩
    case isFalse hl =>
      exact absurd h (by simp)
  case _ buf rest heq =>
    simp only [Option.some.injEq] at h
    exact ⟨i, Instr.wbytes buf, rest, heq, by rw [← h], by rw [← h]; rfl, by rw [← h]⟩
  case _ rest heq =>
    simp only [Option.some.injEq] at h
    exact ⟨i, Instr.closeI, rest, heq, by rw [← h], by rw [← h]; rfl, by rw [← h]⟩
  case _ u rest heq =>
    simp only [Option.some.injEq] at h
    exact ⟨i, Instr.setDayI u, rest, heq, by rw [← h], by rw [← h]; rfl, by rw [← h]⟩
  case _ rest heq =>
    simp only [Option.some.injEq] at h
    exact ⟨i, Instr.openI, rest, heq, by rw [← h], by rw [← h]; rfl, by rw [← h]⟩

theorem runSched_sound (sched : List Nat) : ∀ (c c' : Config),
    runSched sched c = some c' → Exec c c' := by
  induction sched with
  | nil =>
    intro c c' h
    simp only [runSched, Option.some.injEq] at h
    rw [h]
    exact Relation.ReflTransGen.refl
  | cons i sched ih =>
    intro c c' h
    unfold runSched at h
    rcases hs : runStep i c with _ | c1
    · rw [hs] at h
      exact absurd h (by simp)
    · rw [hs] at h
      exact Relation.ReflTransGen.head (runStep_sound i c c1 hs) (ih c1 c' h)

/-! ### The mutual-exclusion invariant -/

/-- A writer thread's remaining program is a suffix of its `writeProg`. -/
def wSuffix (b : List UInt8) (l : List Instr) : Prop :=
  l = [Instr.acq, Instr.wbytes b, Instr.rel] ∨ l = [Instr.wbytes b, Instr.rel] ∨
  l = [Instr.rel] ∨ l = []

/-- Every writer thread is outside its critical section (not yet started,
or finished). -/
def writersIdle (bufs : List (List UInt8)) (c : Config) : Prop :=
  ∀ i, i < bufs.length → (c.progs i = writeProg (bufs.getD i []) ∨ c.progs i = [])

/-- Either the lock is free and every writer is outside its critical
section, or exactly one writer holds the lock inside its critical section
and all other writers are outside theirs. -/
def writersLock (bufs : List (List UInt8)) (c : Config) : Prop :=
  (c.lock = none ∧ writersIdle bufs c) ∨
  (∃ j, j < bufs.length ∧ c.lock = some j ∧
    (c.progs j = [Instr.wbytes (bufs.getD j []), Instr.rel] ∨ c.progs j = [Instr.rel]) ∧
    ∀ i, i < bufs.length → i ≠ j →
      (c.progs i = writeProg (bufs.getD i []) ∨ c.progs i = []))

/-- The filestore holds exactly the initial contents plus the buffers of
the writers listed in `A` (appended to the old day's file `p0`, in order)
and those in `B` (appended to the new day's file `pNew`). -/
def filesSpec (bufs : List (List UInt8)) (f0 : Files) (p0 pNew : String)
    (A B : List Nat) (c : Config) : Prop :=
  ∀ x, content c.st.files x =
    if x = p0 then content f0 p0 ++ (A.map (fun i => bufs.getD i [])).flatten
    else if x = pNew then content f0 pNew ++ (B.map (fun i => bufs.getD i [])).flatten
    else content f0 x

/-- The inductive invariant of the race between N writers and one
rotation: thread programs are suffixes of their full programs, the mutex
protects the critical sections, and the filestore is as `filesSpec`
states, where `A` and `B` are the writers whose byte transfer happened
before resp. after the rotation. -/
def Inv (bufs : List (List UInt8)) (t : GoTime) (w0 : WState) (f0 : Files)
    (p0 pNew : String) (c : Config) : Prop :=
  (∀ i, bufs.length < i → c.progs i = []) ∧
  (c.st.w.logDir = w0.logDir ∧ c.st.w.leader = w0.leader ∧ c.st.w.trailer = w0.trailer) ∧
  (∀ i, i < bufs.length → wSuffix (bufs.getD i []) (c.progs i)) ∧
  ∃ A B : List Nat,
    (A ++ B).Nodup ∧
    (∀ i, i ∈ A ++ B → i < bufs.length) ∧
    (∀ i, i < bufs.length → ((c.progs i).length ≤ 1 ↔ i ∈ A ++ B)) ∧
    filesSpec bufs f0 p0 pNew A B c ∧
    ((c.progs bufs.length = rotateProg t ∧ B = [] ∧ c.st.w.sink = some p0 ∧
        c.st.w.startOfToday = w0.startOfToday ∧ writersLock bufs c) ∨
     (c.progs bufs.length = [Instr.closeI, Instr.setDayI t, Instr.openI, Instr.rel] ∧
        B = [] ∧ c.lock = some bufs.length ∧ writersIdle bufs c ∧
        c.st.w.sink = some p0 ∧ c.st.w.startOfToday = w0.startOfToday) ∨
     (c.progs bufs.length = [Instr.setDayI t, Instr.openI, Instr.rel] ∧
        B = [] ∧ c.lock = some bufs.length ∧ writersIdle bufs c ∧
        c.st.w.sink = none ∧ c.st.w.startOfToday = w0.startOfToday) ∨
     (c.progs bufs.length = [Instr.openI, Instr.rel] ∧
        B = [] ∧ c.lock = some bufs.length ∧ writersIdle bufs c ∧
        c.st.w.sink = none ∧ c.st.w.startOfToday = getLastMidnight t) ∨
     (c.progs bufs.length = [Instr.rel] ∧
        B = [] ∧ c.lock = some bufs.length ∧ writersIdle bufs c ∧
        c.st.w.sink = some pNew ∧ c.st.w.startOfToday = getLastMidnight t) ∨
     (c.progs bufs.length = [] ∧
        c.st.w.sink = some pNew ∧ c.st.w.startOfToday = getLastMidnight t ∧
        writersLock bufs c))

theorem getLogPathname_congr (w1 w2 : WState) (now : GoTime)
    (h1 : w1.logDir = w2.logDir) (h2 : w1.leader = w2.leader)
    (h3 : w1.trailer = w2.trailer) :
    getLogPathname w1 now = getLogPathname w2 now := by
  unfold getLogPathname
  rw [h1, h2, h3]

theorem writeBytes_files_some (b : List UInt8) (m : MState) (p : String)
    (h : m.w.sink = some p) : (writeBytes b m).files = appendTo p b m.files := by
  unfold writeBytes
  rw [h]

theorem nodup_snoc (l : List Nat) (i : Nat) (h : l.Nodup) (hi : i ∉ l) :
    (l ++ [i]).Nodup :=
  h.append (List.nodup_singleton i)
    (fun a ha hb => hi (by rwa [List.mem_singleton.mp hb] at ha))

theorem flatten_map_snoc (bufs : List (List UInt8)) (A : List Nat) (i : Nat) :
    (((A ++ [i]).map (fun j => bufs.getD j [])).flatten) =
      ((A.map (fun j => bufs.getD j [])).flatten) ++ bufs.getD i [] := by
  rw [List.map_append, List.flatten_append]
  simp

/-- The initial configuration satisfies the invariant. -/
theorem inv_init (bufs : List (List UInt8)) (t : GoTime) (w0 : WState) (f0 : Files)
    (p0 : String) (hw0 : w0.sink = some p0) (pNew : String) :
    Inv bufs t w0 f0 p0 pNew (initConfig bufs t ⟨w0, f0⟩) := by
  have hprogs : ∀ i, (initConfig bufs t ⟨w0, f0⟩).progs i =
      (if i < bufs.length then writeProg (bufs.getD i [])
       else if i = bufs.length then rotateProg t else []) := fun i => rfl
  refine ⟨?_, ⟨rfl, rfl, rfl⟩, ?_, [], [], List.nodup_nil, ?_, ?_, ?_, ?_⟩
  · intro i hi
    rw [hprogs i, if_neg (by omega), if_neg (by omega)]
  · intro i hi
    rw [hprogs i, if_pos hi]
    exact Or.inl rfl
  · intro i hi
    exact absurd hi (by simp)
  · intro i hi
    rw [hprogs i, if_pos hi]
    constructor
    · intro hlen
      exact absurd hlen (by simp [writeProg])
    · intro hmem
      exact absurd hmem (by simp)
  · intro x
    show content f0 x = _
    split_ifs with h1 h2
    · rw [h1]
      simp
    · rw [h2]
      simp
    · rfl
  · refine Or.inl ⟨?_, rfl, hw0, rfl, Or.inl ⟨rfl, ?_⟩⟩
    · rw [hprogs bufs.length, if_neg (by omega), if_pos rfl]
    · intro i hi
      rw [hprogs i, if_pos hi]
      exact Or.inl rfl

theorem effInstr_tmpl (instr : Instr) (m : MState) :
    (effInstr instr m).w.logDir = m.w.logDir ∧ (effInstr instr m).w.leader = m.w.leader ∧
    (effInstr instr m).w.trailer = m.w.trailer := by
  cases instr with
  | acq => exact ⟨rfl, rfl, rfl⟩
  | rel => exact ⟨rfl, rfl, rfl⟩
  | wbytes b =>
    rw [show effInstr (Instr.wbytes b) m = writeBytes b m from rfl, writeBytes_w]
    exact ⟨rfl, rfl, rfl⟩
  | closeI => exact ⟨rfl, rfl, rfl⟩
  | setDayI u => exact ⟨rfl, rfl, rfl⟩
  | openI => exact ⟨rfl, rfl, rfl⟩

/-- Any interleaving step preserves the invariant: the heart of the
mutual-exclusion argument. -/
theorem inv_step (bufs : List (List UInt8)) (t : GoTime) (w0 : WState) (f0 : Files)
    (p0 pNew : String) (hne : pNew ≠ p0)
    (hpN : pNew = getLogPathname w0 (getLastMidnight t))
    (c c' : Config) (hs : stepG c c')
    (hinv : Inv bufs t w0 f0 p0 pNew c) : Inv bufs t w0 f0 p0 pNew c' := by
  obtain ⟨i, instr, rest, hpi, hpr, hst, hlk⟩ := hs
  obtain ⟨hhi, htmpl, hws, A, B, hnd, hlt, hmem, hfiles, hphase⟩ := hinv
  have htmpl' : c'.st.w.logDir = w0.logDir ∧ c'.st.w.leader = w0.leader ∧
      c'.st.w.trailer = w0.trailer := by
    have h := effInstr_tmpl instr c.st
    rw [hst]
    exact ⟨h.1.trans htmpl.1, h.2.1.trans htmpl.2.1, h.2.2.trans htmpl.2.2⟩
  have hup_same : c'.progs i = rest := by
    rw [hpr]
    exact Function.update_same ..
  have hup_ne : ∀ j, j ≠ i → c'.progs j = c.progs j := by
    intro j hj
    rw [hpr]
    exact Function.update_noteq hj ..
  rcases Nat.lt_trichotomy i bufs.length with hiN | hiN | hiN
  · -- a writer thread steps
    have hiNe : i ≠ bufs.length := by omega
    have hhi' : ∀ j, bufs.length < j → c'.progs j = [] := by
      intro j hj
      rw [hup_ne j (by omega)]
      exact hhi j hj
    rcases hws i hiN with hsh | hsh | hsh | hsh
    · -- writer about to acquire
      have he : instr :: rest = [Instr.acq, Instr.wbytes (bufs.getD i []), Instr.rel] :=
        hpi.symm.trans hsh
      have hei : instr = Instr.acq := by injection he
      have her : rest = [Instr.wbytes (bufs.getD i []), Instr.rel] := by injection he
      subst hei her
      obtain ⟨hl0, hl1⟩ := hlk
      have hst' : c'.st = c.st := hst
      have hws' : ∀ j, j < bufs.length → wSuffix (bufs.getD j []) (c'.progs j) := by
        intro j hj
        by_cases hji : j = i
        · subst hji
          rw [hup_same]
          exact Or.inr (Or.inl rfl)
        · rw [hup_ne j hji]
          exact hws j hj
      have hmem' : ∀ j, j < bufs.length → ((c'.progs j).length ≤ 1 ↔ j ∈ A ++ B) := by
        intro j hj
        by_cases hji : j = i
        · subst hji
          rw [hup_same]
          have h0 := hmem j hj
          rw [hsh] at h0
          simp only [List.length_cons, List.length_nil] at h0 ⊢
          exact ⟨fun hc => absurd hc (by omega), fun hm => absurd (h0.mpr hm) (by omega)⟩
        · rw [hup_ne j hji]
          exact hmem j hj
      have hfiles' : filesSpec bufs f0 p0 pNew A B c' := by
        intro x
        rw [hst']
        exact hfiles x
      rcases hphase with ⟨hpg, hB, hsink, hday, hwl⟩ | ⟨hpg, hB, hl, hidle, hsink, hday⟩ |
        ⟨hpg, hB, hl, hidle, hsink, hday⟩ | ⟨hpg, hB, hl, hidle, hsink, hday⟩ |
        ⟨hpg, hB, hl, hidle, hsink, hday⟩ | ⟨hpg, hsink, hday, hwl⟩
      · -- rotation not started
        rcases hwl with ⟨_, hidle⟩ | ⟨j, hjN, hlj, _, _⟩
        swap
        · rw [hl0] at hlj
          exact absurd hlj (by simp)
        refine ⟨hhi', htmpl', hws', A, B, hnd, hlt, hmem', hfiles', Or.inl
          ⟨by rw [hup_ne _ (Ne.symm hiNe)]; exact hpg, hB, by rw [hst']; exact hsink,
           by rw [hst']; exact hday, Or.inr ⟨i, hiN, hl1, Or.inl hup_same, ?_⟩⟩⟩
        intro k hk hki
        rw [hup_ne k hki]
        exact hidle k hk
      · rw [hl0] at hl
        exact absurd hl (by simp)
      · rw [hl0] at hl
        exact absurd hl (by simp)
      · rw [hl0] at hl
        exact absurd hl (by simp)
      · rw [hl0] at hl
        exact absurd hl (by simp)
      · -- rotation finished
        rcases hwl with ⟨_, hidle⟩ | ⟨j, hjN, hlj, _, _⟩
        swap
        · rw [hl0] at hlj
          exact absurd hlj (by simp)
        refine ⟨hhi', htmpl', hws', A, B, hnd, hlt, hmem', hfiles', Or.inr (Or.inr (Or.inr
          (Or.inr (Or.inr ⟨by rw [hup_ne _ (Ne.symm hiNe)]; exact hpg,
            by rw [hst']; exact hsink, by rw [hst']; exact hday,
            Or.inr ⟨i, hiN, hl1, Or.inl hup_same, ?_⟩⟩))))⟩
        intro k hk hki
        rw [hup_ne k hki]
        exact hidle k hk
    · -- writer transfers its bytes
      have he : instr :: rest = [Instr.wbytes (bufs.getD i []), Instr.rel] :=
        hpi.symm.trans hsh
      have hei : instr = Instr.wbytes (bufs.getD i []) := by injection he
      have her : rest = [Instr.rel] := by injection he
      subst hei her
      have hlk' : c'.lock = c.lock := hlk
      have hinA : i ∉ A ++ B := by
        intro hmemi
        have h0 := (hmem i hiN).mpr hmemi
        rw [hsh] at h0
        simp at h0
      have hws' : ∀ j, j < bufs.length → wSuffix (bufs.getD j []) (c'.progs j) := by
        intro j hj
        by_cases hji : j = i
        · subst hji
          rw [hup_same]
          exact Or.inr (Or.inr (Or.inl rfl))
        · rw [hup_ne j hji]
          exact hws j hj
      rcases hphase with ⟨hpg, hB, hsink, hday, hwl⟩ | ⟨hpg, hB, hl, hidle, hsink, hday⟩ |
        ⟨hpg, hB, hl, hidle, hsink, hday⟩ | ⟨hpg, hB, hl, hidle, hsink, hday⟩ |
        ⟨hpg, hB, hl, hidle, hsink, hday⟩ | ⟨hpg, hsink, hday, hwl⟩
      case _ =>
        -- rotation not started: bytes go to the old day's file; A grows
        subst hB
        rw [List.append_nil] at hnd hlt hinA
        rcases hwl with ⟨_, hidle⟩ | ⟨j, hjN, hlj, hjsh, hothers⟩
        · rcases hidle i hiN with h0 | h0 <;> rw [hsh] at h0 <;> simp [writeProg] at h0
        have hji : j = i := by
          by_contra hne2
          rcases hothers i hiN (fun h => hne2 h.symm) with h0 | h0 <;>
            rw [hsh] at h0 <;> simp [writeProg] at h0
        subst hji
        have hfilesU : c'.st.files = appendTo p0 (bufs.getD j []) c.st.files := by
          rw [hst]
          exact writeBytes_files_some (bufs.getD j []) c.st p0 hsink
        have hwW : c'.st.w = c.st.w := by
          rw [hst]
          exact writeBytes_w (bufs.getD j []) c.st
        refine ⟨?_, htmpl', hws', A ++ [j], [], ?_, ?_, ?_, ?_, Or.inl
          ⟨by rw [hup_ne _ (Ne.symm hiNe)]; exact hpg, rfl, by rw [hwW]; exact hsink,
           by rw [hwW]; exact hday,
           Or.inr ⟨j, hjN, by rw [hlk']; exact hlj, Or.inr hup_same, ?_⟩⟩⟩
        · intro k hk
          rw [hup_ne k (by omega)]
          exact hhi k hk
        · rw [List.append_nil]
          exact nodup_snoc A j hnd hinA
        · intro k hk
          rw [List.append_nil] at hk
          rcases List.mem_append.mp hk with h0 | h0
          · exact hlt k h0
          · rw [List.mem_singleton.mp h0]
            exact hjN
        · intro k hk
          rw [List.append_nil, List.mem_append, List.mem_singleton]
          by_cases hkj : k = j
          · subst hkj
            rw [hup_same]
            simp
          · rw [hup_ne k hkj]
            have h0 := hmem k hk
            rw [List.append_nil] at h0
            rw [h0]
            simp [hkj]
        · intro x
          have hne2 : p0 ≠ pNew := fun h => hne h.symm
          rw [hfilesU, content_appendTo, hfiles x]
          by_cases hx0 : x = p0
          · subst hx0
            simp [hne2, flatten_map_snoc]
          · by_cases hxn : x = pNew
            · subst hxn
              simp [hx0]
            · simp [hx0, hxn]
        · intro k hk hkj
          rw [hup_ne k hkj]
          exact hothers k hk hkj
      case _ =>
        rcases hidle i hiN with h0 | h0 <;> rw [hsh] at h0 <;> simp [writeProg] at h0
      case _ =>
        rcases hidle i hiN with h0 | h0 <;> rw [hsh] at h0 <;> simp [writeProg] at h0
      case _ =>
        rcases hidle i hiN with h0 | h0 <;> rw [hsh] at h0 <;> simp [writeProg] at h0
      case _ =>
        rcases hidle i hiN with h0 | h0 <;> rw [hsh] at h0 <;> simp [writeProg] at h0
      case _ =>
        -- rotation finished: bytes go to the new day's file; B grows
        rcases hwl with ⟨_, hidle⟩ | ⟨j, hjN, hlj, hjsh, hothers⟩
        · rcases hidle i hiN with h0 | h0 <;> rw [hsh] at h0 <;> simp [writeProg] at h0
        have hji : j = i := by
          by_contra hne2
          rcases hothers i hiN (fun h => hne2 h.symm) with h0 | h0 <;>
            rw [hsh] at h0 <;> simp [writeProg] at h0
        subst hji
        have hfilesU : c'.st.files = appendTo pNew (bufs.getD j []) c.st.files := by
          rw [hst]
          exact writeBytes_files_some (bufs.getD j []) c.st pNew hsink
        have hwW : c'.st.w = c.st.w := by
          rw [hst]
          exact writeBytes_w (bufs.getD j []) c.st
        refine ⟨?_, htmpl', hws', A, B ++ [j], ?_, ?_, ?_, ?_, Or.inr (Or.inr (Or.inr
          (Or.inr (Or.inr ⟨by rw [hup_ne _ (Ne.symm hiNe)]; exact hpg,
            by rw [hwW]; exact hsink, by rw [hwW]; exact hday,
            Or.inr ⟨j, hjN, by rw [hlk']; exact hlj, Or.inr hup_same, ?_⟩⟩))))⟩
        · intro k hk
          rw [hup_ne k (by omega)]
          exact hhi k hk
        · rw [← List.append_assoc]
          exact nodup_snoc (A ++ B) j hnd hinA
        · intro k hk
          rw [← List.append_assoc] at hk
          rcases List.mem_append.mp hk with h0 | h0
          · exact hlt k h0
          · rw [List.mem_singleton.mp h0]
            exact hjN
        · intro k hk
          rw [← List.append_assoc, List.mem_append, List.mem_singleton]
          by_cases hkj : k = j
          · subst hkj
            rw [hup_same]
            simp
          · rw [hup_ne k hkj]
            have h0 := hmem k hk
            rw [h0, List.mem_append]
            simp [hkj]
        · intro x
          have hne2 : p0 ≠ pNew := fun h => hne h.symm
          rw [hfilesU, content_appendTo, hfiles x]
          by_cases hx0 : x = p0
          · subst hx0
            simp [hne2]
          · by_cases hxn : x = pNew
            · subst hxn
              simp [hx0, flatten_map_snoc]
            · simp [hx0, hxn]
        · intro k hk hkj
          rw [hup_ne k hkj]
          exact hothers k hk hkj
    · -- writer releases the lock
      have he : instr :: rest = [Instr.rel] := hpi.symm.trans hsh
      have hei : instr = Instr.rel := by injection he
      have her : rest = [] := by injection he
      subst hei her
      obtain ⟨hl0, hl1⟩ := hlk
      have hst' : c'.st = c.st := hst
      have hws' : ∀ j, j < bufs.length → wSuffix (bufs.getD j []) (c'.progs j) := by
        intro j hj
        by_cases hji : j = i
        · subst hji
          rw [hup_same]
          exact Or.inr (Or.inr (Or.inr rfl))
        · rw [hup_ne j hji]
          exact hws j hj
      have hmemi : i ∈ A ++ B := by
        have h0 := hmem i hiN
        rw [hsh] at h0
        exact h0.mp (by simp)
      have hmem' : ∀ j, j < bufs.length → ((c'.progs j).length ≤ 1 ↔ j ∈ A ++ B) := by
        intro j hj
        by_cases hji : j = i
        · subst hji
          rw [hup_same]
          simp only [List.length_nil]
          exact ⟨fun _ => hmemi, fun _ => by omega⟩
        · rw [hup_ne j hji]
          exact hmem j hj
      have hfiles' : filesSpec bufs f0 p0 pNew A B c' := by
        intro x
        rw [hst']
        exact hfiles x
      rcases hphase with ⟨hpg, hB, hsink, hday, hwl⟩ | ⟨hpg, hB, hl, hidle, hsink, hday⟩ |
        ⟨hpg, hB, hl, hidle, hsink, hday⟩ | ⟨hpg, hB, hl, hidle, hsink, hday⟩ |
        ⟨hpg, hB, hl, hidle, hsink, hday⟩ | ⟨hpg, hsink, hday, hwl⟩
      · rcases hwl with ⟨hlnone, _⟩ | ⟨j, hjN, hlj, hjsh, hothers⟩
        · rw [hl0] at hlnone
          exact absurd hlnone (by simp)
        have hji : j = i := by
          rw [hl0] at hlj
          exact (Option.some.inj hlj).symm
        subst hji
        refine ⟨?_, htmpl', hws', A, B, hnd, hlt, hmem', hfiles', Or.inl
          ⟨by rw [hup_ne _ (Ne.symm hiNe)]; exact hpg, hB, by rw [hst']; exact hsink,
           by rw [hst']; exact hday, Or.inl ⟨hl1, ?_⟩⟩⟩
        · intro k hk
          rw [hup_ne k (by omega)]
          exact hhi k hk
        · intro k hk
          by_cases hkj : k = j
          · subst hkj
            rw [hup_same]
            exact Or.inr rfl
          · rw [hup_ne k hkj]
            exact hothers k hk hkj
      · rw [hl0] at hl
        have : i = bufs.length := by
          have h0 := (Option.some.injEq ..).mp hl.symm
          omega
        omega
      · rw [hl0] at hl
        have : i = bufs.length := by
          have h0 := (Option.some.injEq ..).mp hl.symm
          omega
        omega
      · rw [hl0] at hl
        have : i = bufs.length := by
          have h0 := (Option.some.injEq ..).mp hl.symm
          omega
        omega
      · rw [hl0] at hl
        have : i = bufs.length := by
          have h0 := (Option.some.injEq ..).mp hl.symm
          omega
        omega
      · rcases hwl with ⟨hlnone, _⟩ | ⟨j, hjN, hlj, hjsh, hothers⟩
        · rw [hl0] at hlnone
          exact absurd hlnone (by simp)
        have hji : j = i := by
          rw [hl0] at hlj
          exact (Option.some.inj hlj).symm
        subst hji
        refine ⟨?_, htmpl', hws', A, B, hnd, hlt, hmem', hfiles', Or.inr (Or.inr (Or.inr
          (Or.inr (Or.inr ⟨by rw [hup_ne _ (Ne.symm hiNe)]; exact hpg,
            by rw [hst']; exact hsink, by rw [hst']; exact hday, Or.inl ⟨hl1, ?_⟩⟩))))⟩
        · intro k hk
          rw [hup_ne k (by omega)]
          exact hhi k hk
        · intro k hk
          by_cases hkj : k = j
          · subst hkj
            rw [hup_same]
            exact Or.inr rfl
          · rw [hup_ne k hkj]
            exact hothers k hk hkj
    · rw [hsh] at hpi
      exact absurd hpi (by simp)
  · -- the rotator steps
    subst hiN
    have hhi' : ∀ j, bufs.length < j → c'.progs j = [] := by
      intro j hj
      rw [hup_ne j (by omega)]
      exact hhi j hj
    have hwsU : ∀ j, j < bufs.length → c'.progs j = c.progs j := by
      intro j hj
      exact hup_ne j (by omega)
    have hws' : ∀ j, j < bufs.length → wSuffix (bufs.getD j []) (c'.progs j) := by
      intro j hj
      rw [hwsU j hj]
      exact hws j hj
    have hmem' : ∀ j, j < bufs.length → ((c'.progs j).length ≤ 1 ↔ j ∈ A ++ B) := by
      intro j hj
      rw [hwsU j hj]
      exact hmem j hj
    rcases hphase with ⟨hpg, hB, hsink, hday, hwl⟩ | ⟨hpg, hB, hl, hidle, hsink, hday⟩ |
      ⟨hpg, hB, hl, hidle, hsink, hday⟩ | ⟨hpg, hB, hl, hidle, hsink, hday⟩ |
      ⟨hpg, hB, hl, hidle, hsink, hday⟩ | ⟨hpg, hsink, hday, hwl⟩
    · -- acquires
      have he : instr :: rest = rotateProg t := hpi.symm.trans hpg
      have hei : instr = Instr.acq := by injection he
      have her : rest = [Instr.closeI, Instr.setDayI t, Instr.openI, Instr.rel] := by
        injection he
      subst hei her
      obtain ⟨hl0, hl1⟩ := hlk
      have hst' : c'.st = c.st := hst
      rcases hwl with ⟨_, hidle⟩ | ⟨j, hjN, hlj, _, _⟩
      swap
      · rw [hl0] at hlj
        exact absurd hlj (by simp)
      have hfiles' : filesSpec bufs f0 p0 pNew A B c' := by
        intro x
        rw [hst']
        exact hfiles x
      refine ⟨hhi', htmpl', hws', A, B, hnd, hlt, hmem', hfiles', Or.inr (Or.inl
        ⟨hup_same, hB, hl1, ?_, by rw [hst']; exact hsink, by rw [hst']; exact hday⟩)⟩
      intro k hk
      rw [hwsU k hk]
      exact hidle k hk
    · -- closes the old sink
      have he : instr :: rest = [Instr.closeI, Instr.setDayI t, Instr.openI, Instr.rel] :=
        hpi.symm.trans hpg
      have hei : instr = Instr.closeI := by injection he
      have her : rest = [Instr.setDayI t, Instr.openI, Instr.rel] := by injection he
      subst hei her
      have hlk' : c'.lock = c.lock := hlk
      have hfeq : c'.st.files = c.st.files := by
        rw [hst]
        rfl
      have hfiles' : filesSpec bufs f0 p0 pNew A B c' := by
        intro x
        rw [hfeq]
        exact hfiles x
      refine ⟨hhi', htmpl', hws', A, B, hnd, hlt, hmem', hfiles', Or.inr (Or.inr (Or.inl
        ⟨hup_same, hB, by rw [hlk']; exact hl, ?_, by rw [hst]; rfl,
         by rw [hst]; exact hday⟩))⟩
      intro k hk
      rw [hwsU k hk]
      exact hidle k hk
    · -- advances the day
      have he : instr :: rest = [Instr.setDayI t, Instr.openI, Instr.rel] :=
        hpi.symm.trans hpg
      have hei : instr = Instr.setDayI t := by injection he
      have her : rest = [Instr.openI, Instr.rel] := by injection he
      subst hei her
      have hlk' : c'.lock = c.lock := hlk
      have hfeq : c'.st.files = c.st.files := by
        rw [hst]
        rfl
      have hfiles' : filesSpec bufs f0 p0 pNew A B c' := by
        intro x
        rw [hfeq]
        exact hfiles x
      refine ⟨hhi', htmpl', hws', A, B, hnd, hlt, hmem', hfiles', Or.inr (Or.inr (Or.inr
        (Or.inl ⟨hup_same, hB, by rw [hlk']; exact hl, ?_, by rw [hst]; exact hsink,
          by rw [hst]; rfl⟩)))⟩
      intro k hk
      rw [hwsU k hk]
      exact hidle k hk
    · -- opens the new day's sink
      have he : instr :: rest = [Instr.openI, Instr.rel] := hpi.symm.trans hpg
      have hei : instr = Instr.openI := by injection he
      have her : rest = [Instr.rel] := by injection he
      subst hei her
      have hlk' : c'.lock = c.lock := hlk
      have hfeq : c'.st.files = c.st.files := by
        rw [hst]
        rfl
      have hfiles' : filesSpec bufs f0 p0 pNew A B c' := by
        intro x
        rw [hfeq]
        exact hfiles x
      have hsink' : c'.st.w.sink = some pNew := by
        rw [hst]
        show some (getLogPathname c.st.w c.st.w.startOfToday) = some pNew
        rw [hday, getLogPathname_congr c.st.w w0 (getLastMidnight t) htmpl.1 htmpl.2.1
          htmpl.2.2, ← hpN]
      refine ⟨hhi', htmpl', hws', A, B, hnd, hlt, hmem', hfiles', Or.inr (Or.inr (Or.inr
        (Or.inr (Or.inl ⟨hup_same, hB, by rw [hlk']; exact hl, ?_, hsink',
          by rw [hst]; exact hday⟩))))⟩
      intro k hk
      rw [hwsU k hk]
      exact hidle k hk
    · -- releases
      have he : instr :: rest = [Instr.rel] := hpi.symm.trans hpg
      have hei : instr = Instr.rel := by injection he
      have her : rest = [] := by injection he
      subst hei her
      obtain ⟨hl0, hl1⟩ := hlk
      have hst' : c'.st = c.st := hst
      have hfiles' : filesSpec bufs f0 p0 pNew A B c' := by
        intro x
        rw [hst']
        exact hfiles x
      refine ⟨hhi', htmpl', hws', A, B, hnd, hlt, hmem', hfiles', Or.inr (Or.inr (Or.inr
        (Or.inr (Or.inr ⟨hup_same, by rw [hst']; exact hsink, by rw [hst']; exact hday,
          Or.inl ⟨hl1, ?_⟩⟩))))⟩
      intro k hk
      rw [hwsU k hk]
      exact hidle k hk
    · rw [hpg] at hpi
      exact absurd hpi (by simp)
  · exact absurd (hpi.symm.trans (hhi i hiN)) (by simp)

theorem exec_inv (bufs : List (List UInt8)) (t : GoTime) (w0 : WState) (f0 : Files)
    (p0 pNew : String) (hne : pNew ≠ p0)
    (hpN : pNew = getLogPathname w0 (getLastMidnight t))
    (c c' : Config) (hexec : Exec c c')
    (hinv : Inv bufs t w0 f0 p0 pNew c) : Inv bufs t w0 f0 p0 pNew c' := by
  induction hexec with
  | refl => exact hinv
  | tail _ hbc ih => exact inv_step bufs t w0 f0 p0 pNew hne hpN _ _ hbc ih

theorem map_getD_range (l : List (List UInt8)) :
    (List.range l.length).map (fun i => l.getD i []) = l := by
  apply List.ext_getElem
  · simp
  · intro i h1 h2
    simp only [List.getElem_map, List.getElem_range]
    exact List.getD_eq_getElem l [] h2

/-- C9: mutual exclusion serializes `Write` and `rotateLogs`.  For every
interleaved execution of N concurrent writes racing one rotation that runs
to completion, there are lists `A` and `B` with `A ++ B` a permutation of
the written buffers such that the old day's file received exactly the
buffers of `A` (each appended whole, in order) and the new day's file
exactly those of `B`: every written byte lands in exactly one of the two
day files, no buffer is split across files, duplicated, or dropped, and a
write that ran after the rotation (e.g. one blocked on the lock while the
rotation held it) went to the new sink.  The final sink is the new day's
file. -/
theorem c9_writes_never_split (bufs : List (List UInt8)) (t : GoTime) (w0 : WState)
    (f0 : Files) (p0 : String) (c : Config)
    (hw0 : w0.sink = some p0)
    (hne : getLogPathname w0 (getLastMidnight t) ≠ p0)
    (hexec : Exec (initConfig bufs t ⟨w0, f0⟩) c)
    (hterm : ∀ i, i < bufs.length + 1 → c.progs i = []) :
    ∃ A B : List (List UInt8),
      List.Perm (A ++ B) bufs ∧
      c.st.w.sink = some (getLogPathname w0 (getLastMidnight t)) ∧
      c.st.w.startOfToday = getLastMidnight t ∧
      (∀ x, content c.st.files x =
        if x = p0 then content f0 p0 ++ A.flatten
        else if x = getLogPathname w0 (getLastMidnight t) then
          content f0 (getLogPathname w0 (getLastMidnight t)) ++ B.flatten
        else content f0 x) := by
  have hinv := exec_inv bufs t w0 f0 p0 (getLogPathname w0 (getLastMidnight t)) hne rfl
    _ c hexec (inv_init bufs t w0 f0 p0 hw0 _)
  obtain ⟨hhi, htmpl, hws, Ai, Bi, hnd, hlt, hmem, hfiles, hphase⟩ := hinv
  have hrot : c.progs bufs.length = [] := hterm bufs.length (by omega)
  rcases hphase with ⟨hpg, _⟩ | ⟨hpg, _⟩ | ⟨hpg, _⟩ | ⟨hpg, _⟩ | ⟨hpg, _⟩ |
    ⟨hpg, hsink, hday, _⟩
  · rw [hrot] at hpg
    exact absurd hpg (by simp [rotateProg])
  · rw [hrot] at hpg
    exact absurd hpg (by simp)
  · rw [hrot] at hpg
    exact absurd hpg (by simp)
  · rw [hrot] at hpg
    exact absurd hpg (by simp)
  · rw [hrot] at hpg
    exact absurd hpg (by simp)
  refine ⟨Ai.map (fun i => bufs.getD i []), Bi.map (fun i => bufs.getD i []), ?_, hsink,
    hday, ?_⟩
  · have hall : ∀ i, i < bufs.length → i ∈ Ai ++ Bi := by
      intro i hi
      exact (hmem i hi).mp (by rw [hterm i (by omega)]; simp)
    have hperm : List.Perm (Ai ++ Bi) (List.range bufs.length) := by
      rw [List.perm_ext_iff_of_nodup hnd (List.nodup_range bufs.length)]
      intro a
      constructor
      · intro ha
        exact List.mem_range.mpr (hlt a ha)
      · intro ha
        exact hall a (List.mem_range.mp ha)
    have hmapped := hperm.map (fun i => bufs.getD i [])
    rw [List.map_append] at hmapped
    rw [map_getD_range bufs] at hmapped
    exact hmapped
  · intro x
    exact hfiles x

/-- Concrete race for the C9 witness: one writer, one rotation across
2020-02-14 → 2020-02-15 in a +01:00 zone. -/
def c9Bufs : List (List UInt8) := [[104, 105]]

def c9T : GoTime := goDate 2020 2 15 0 0 0 1000 3600

def c9W0 : WState :=
  newWriter (goDate 2020 2 14 23 59 59 500000000 3600) "dir" "foo." ".bar" 0 0 "" ""

def c9P0 : String := "dir/foo.2020-02-14.bar"

def c9Init : Config := initConfig c9Bufs c9T ⟨c9W0, []⟩

/-- A complete schedule: the writer's three instructions, then the
rotator's five. -/
def c9Sched : List Nat := [0, 0, 0, 1, 1, 1, 1, 1]

def c9Final : Config := (runSched c9Sched c9Init).getD c9Init

theorem c9_writes_never_split_witness :
    c9W0.sink = some c9P0 ∧
    getLogPathname c9W0 (getLastMidnight c9T) ≠ c9P0 ∧
    (∃ A B : List (List UInt8),
      List.Perm (A ++ B) c9Bufs ∧
      c9Final.st.w.sink = some (getLogPathname c9W0 (getLastMidnight c9T)) ∧
      c9Final.st.w.startOfToday = getLastMidnight c9T ∧
      (∀ x, content c9Final.st.files x =
        if x = c9P0 then content ([] : Files) c9P0 ++ A.flatten
        else if x = getLogPathname c9W0 (getLastMidnight c9T) then
          content ([] : Files) (getLogPathname c9W0 (getLastMidnight c9T)) ++ B.flatten
        else content ([] : Files) x)) :=
  ⟨by decide, by decide,
   c9_writes_never_split c9Bufs c9T c9W0 [] c9P0 c9Final (by decide) (by decide)
     (runSched_sound c9Sched c9Init c9Final rfl) (by decide)⟩

end Dailylogger
